import Mathlib

/-!
Verification of the bloomit Bloom-filter library (TypeScript sources
`src/utils.ts`, `src/encoding.ts`, `src/bloom-filter.ts`).

Shallow embedding conventions:
* JS numbers holding non-negative integers are modelled as `Nat`; where a JS
  bitwise operator coerces through ToInt32 (wrap modulo 2 ^ 32, truncation of
  the fractional part) the wrap / truncation is written explicitly.
* `Uint8Array` values are modelled as `List Nat` of byte values.
* The xxhash32 function `XXH.h32` is an opaque external dependency; every
  definition is parametrised by an arbitrary hash function
  `H : α → Nat → Nat` (value, seed ↦ hash), and elements come from an
  arbitrary type `α`, so theorems quantify over all possible hashes.
* A JS `throw` is modelled as a distinguished result constructor; the one
  loop in the code (in `getDistinctIndices`) is modelled with an explicit
  fuel parameter, with a `diverge` result when the fuel runs out, so that
  termination is a provable property rather than an assumption.
-/

/-- From `src/utils.ts` `hashTwice`: two hashes of the same value, computed
with seeds `seed + 1` and `seed + 2` (the pair `(first, second)`). -/
def hashTwice (H : α → Nat → Nat) (value : α) (seed : Nat) : Nat × Nat :=
  (H value (seed + 1), H value (seed + 2))

/-- From `src/utils.ts` `doubleHashing`:
`Math.abs((hashA + n*hashB + Math.floor((n**3 - n)/6)) % size)`.
All inputs are non-negative, so the JS remainder is the ordinary `Nat` mod,
`Math.floor` of the exact integer division is `Nat` division (`n ^ 3 - n` is
never truncated since `n ≤ n ^ 3`), and `Math.abs` is the identity. -/
def doubleHashing (n hashA hashB size : Nat) : Nat :=
  (hashA + n * hashB + (n ^ 3 - n) / 6) % size

/-- Result of `getDistinctIndices`: a normal return, the
`max iterations exceeded` throw, or fuel exhaustion of the embedding
(`diverge` models the loop running forever). -/
inductive GdiResult where
  | ok : List Nat → GdiResult
  | throwMax : GdiResult
  | diverge : GdiResult
deriving DecidableEq, Repr

/-- The while-loop of `src/utils.ts` `getDistinctIndices`, one recursive call
per loop iteration, with explicit fuel.  State: current `first`, `second`,
`seed`, counter `i`, and accumulated `indices`.  Loop body, in source order:
compute `index = first % size`; push it if not already present; update
`first = (first + second) % size`, `second = (second + i) % size`; `i++`;
if `i > size` reseed (`seed++` and rehash); if `maxIterations` is truthy and
`i > maxIterations`, throw. -/
def getDistinctIndicesAux (H : α → Nat → Nat) (element : α)
    (size number maxIterations : Nat) :
    Nat → Nat → Nat → Nat → Nat → List Nat → GdiResult
  | 0, _, _, _, _, _ => .diverge
  | fuel + 1, first, second, seed, i, indices =>
    if number ≤ indices.length then .ok indices
    else
      let index := first % size
      let indices1 := if indices.contains index then indices else indices ++ [index]
      let first1 := (first + second) % size
      let second1 := (second + i) % size
      let i1 := i + 1
      let st : Nat × Nat × Nat :=
        if size < i1 then
          ((hashTwice H element (seed + 1)).1, (hashTwice H element (seed + 1)).2, seed + 1)
        else (first1, second1, seed)
      if maxIterations ≠ 0 ∧ maxIterations < i1 then .throwMax
      else getDistinctIndicesAux H element size number maxIterations fuel
        st.1 st.2.1 st.2.2 i1 indices1

/-- From `src/utils.ts` `getDistinctIndices(element, size, number, seed,
maxIterations)`.  The fuel `maxIterations + 1` is enough for the loop to
reach its own throw whenever `maxIterations ≥ 1` (proved below), so `diverge`
is only reachable for `maxIterations = 0` (a falsy ceiling disables the
throw in the source). -/
def getDistinctIndices (H : α → Nat → Nat) (element : α)
    (size number seed maxIterations : Nat) : GdiResult :=
  getDistinctIndicesAux H element size number maxIterations (maxIterations + 1)
    (hashTwice H element seed).1 (hashTwice H element seed).2 seed 1 []

/-- From `src/utils.ts` `getUint8ArrayLength`:
`remainder = bitCount % 8; bitFill = 8 - remainder;
return (bitCount + bitFill) / 8` (the division is exact in the source). -/
def getUint8ArrayLength (bitCount : Nat) : Nat :=
  let remainder := bitCount % 8
  let bitFill := 8 - remainder
  (bitCount + bitFill) / 8

/-- From `src/utils.ts` `getByteIndexInArray`: `Math.floor(bitIndex / 8)`. -/
def getByteIndexInArray (bitIndex : Nat) : Nat :=
  bitIndex / 8

/-- From `src/utils.ts` `getBitIndex`: `bitIndex % 8`. -/
def getBitIndex (bitIndex : Nat) : Nat :=
  bitIndex % 8

/-- From `src/utils.ts` `setBitInByte`: `byte | (1 << indexInByte)`. -/
def setBitInByte (indexInByte byte : Nat) : Nat :=
  byte ||| (1 <<< indexInByte)

/-- From `src/utils.ts` `getBitAtIndex`:
`byte = array[byteIndex]; byteAND = setBitInByte(indexInByte, 0);
return (byte & byteAND) >> indexInByte`.  A JS out-of-range read yields
`undefined`, which the bitwise AND coerces to 0; `List.getD _ _ 0` models
this. -/
def getBitAtIndex (array : List Nat) (bitIndex : Nat) : Nat :=
  let byte := array.getD (getByteIndexInArray bitIndex) 0
  let indexInByte := getBitIndex bitIndex
  let byteAND := setBitInByte indexInByte 0
  (byte &&& byteAND) >>> indexInByte

/-- From `src/encoding.ts` `int32ToUint8Array`: the loop
`for (index = 3..0) { bytes[index] = n & 0xff; n >>= 8 }`, unrolled.  The JS
bitwise operators coerce `n` through ToInt32; for a non-negative `n` this is
wrapping modulo `2 ^ 32` (written once up front: the later arithmetic shifts
agree with `Nat` division on every extracted byte). -/
def int32ToUint8Array (n : Nat) : List Nat :=
  let n0 := n % 2 ^ 32
  let b3 := n0 % 256
  let n1 := n0 / 2 ^ 8
  let b2 := n1 % 256
  let n2 := n1 / 2 ^ 8
  let b1 := n2 % 256
  let n3 := n2 / 2 ^ 8
  let b0 := n3 % 256
  [b0, b1, b2, b3]

/-- From `src/encoding.ts` `int64ToUint8Array`: high 32-bit half
(`n / 2 ** 32`, truncated by the bitwise coercions inside
`int32ToUint8Array`, hence `Nat` division here) followed by the low half. -/
def int64ToUint8Array (n : Nat) : List Nat :=
  int32ToUint8Array (n / 2 ^ 32) ++ int32ToUint8Array n

/-- Loop of `src/encoding.ts` `uint8ArrayToInt64`:
`for ([index, byte] of byteArray.entries()) int64 += byte * 2 ** (56 - index*8)`.
Only ever applied to arrays of length ≤ 8, where the exponent never goes
negative. -/
def uint8ArrayToInt64Aux : List Nat → Nat → Nat → Nat
  | [], _, int64 => int64
  | byte :: rest, index, int64 =>
    uint8ArrayToInt64Aux rest (index + 1) (int64 + byte * 2 ^ (56 - index * 8))

/-- From `src/encoding.ts` `uint8ArrayToInt64`. -/
def uint8ArrayToInt64 (byteArray : List Nat) : Nat :=
  uint8ArrayToInt64Aux byteArray 0 0

/-- Models `Uint8Array.prototype.slice(b, e)`: the elements at positions
`[b, e)` that exist. -/
def uint8ArraySlice (arr : List Nat) (b e : Nat) : List Nat :=
  (arr.drop b).take (e - b)

/-- Models `Uint8Array.prototype.set(src, offset)`: overwrite `src.length` bytes of
`arr` starting at `offset`.  All uses below satisfy
`offset + src.length ≤ arr.length` (otherwise the JS call would throw). -/
def uint8ArraySet (arr src : List Nat) (offset : Nat) : List Nat :=
  arr.take offset ++ src ++ arr.drop (offset + src.length)

/-- The state of `src/bloom-filter.ts` `class BloomFilter`:
`_size`, `_nbHashes`, `_filter` (the bit buffer), `_length`
(element count), `_seed`. -/
structure BloomFilter where
  size : Nat
  nbHashes : Nat
  filter : List Nat
  length : Nat
  seed : Nat
deriving DecidableEq, Repr

/-- From the `src/bloom-filter.ts` constructor: seed `0x1234567890`, a zeroed buffer
of `getUint8ArrayLength(size)` bytes, element count 0. -/
def BloomFilter.new (size nbHashes : Nat) : BloomFilter :=
  { size := size
    nbHashes := nbHashes
    filter := List.replicate (getUint8ArrayLength size) 0
    length := 0
    seed := 0x1234567890 }

/-- From `src/bloom-filter.ts`, the static method that builds a filter from a
binary buffer: slice the four
8-byte header fields and the trailing bit buffer, build a filter from the
decoded size and hash count, then overwrite seed, length and buffer.
(`export` is a Lean keyword, hence the `Filter` suffix here and below.) -/
def BloomFilter.importFilter (binaryBloomFilter : List Nat) : BloomFilter :=
  let seedArray := uint8ArraySlice binaryBloomFilter 0 8
  let nbHashesArray := uint8ArraySlice binaryBloomFilter 8 16
  let lengthArray := uint8ArraySlice binaryBloomFilter 16 24
  let sizeArray := uint8ArraySlice binaryBloomFilter 24 32
  let filterArray := uint8ArraySlice binaryBloomFilter 32 binaryBloomFilter.length
  let bloomFilter :=
    BloomFilter.new (uint8ArrayToInt64 sizeArray) (uint8ArrayToInt64 nbHashesArray)
  { bloomFilter with
      seed := uint8ArrayToInt64 seedArray
      length := uint8ArrayToInt64 lengthArray
      filter := filterArray }

/-- Body of the write loop in `BloomFilter.add`:
`indexToEdit = getByteIndexInArray(idx); byteToEdit = filter[indexToEdit];
filter[indexToEdit] = setBitInByte(getBitIndex(idx), byteToEdit)`. -/
def setBitAtIndex (filter : List Nat) (bitIndex : Nat) : List Nat :=
  let indexToEdit := getByteIndexInArray bitIndex
  let byteToEdit := filter.getD indexToEdit 0
  let editedByte := setBitInByte (getBitIndex bitIndex) byteToEdit
  filter.set indexToEdit editedByte

/-- From `src/bloom-filter.ts` `add(element)`: generate the indices (with the
default iteration ceiling `size * 100`), set every corresponding bit, then
increment `_length`.  A throw from `getDistinctIndices` propagates before
any mutation, modelled by `none`. -/
def BloomFilter.add (H : α → Nat → Nat) (f : BloomFilter) (element : α) :
    Option BloomFilter :=
  match getDistinctIndices H element f.size f.nbHashes f.seed (f.size * 100) with
  | .ok indexes =>
    some { f with
            filter := indexes.foldl setBitAtIndex f.filter
            length := f.length + 1 }
  | _ => none

/-- A sequence of `add` calls, failing as soon as one of them throws. -/
def BloomFilter.addAll (H : α → Nat → Nat) (f : BloomFilter) :
    List α → Option BloomFilter
  | [] => some f
  | e :: es =>
    match BloomFilter.add H f e with
    | some f1 => BloomFilter.addAll H f1 es
    | none => none

/-- From `src/bloom-filter.ts` `has(element)`: generate the same indices, return
`false` on the first unset bit (`!getBitAtIndex(...)`, i.e. a zero bit),
else `true`.  The early-return loop is the same function as `List.all`. -/
def BloomFilter.has (H : α → Nat → Nat) (f : BloomFilter) (element : α) :
    Option Bool :=
  match getDistinctIndices H element f.size f.nbHashes f.seed (f.size * 100) with
  | .ok indexes => some (indexes.all (fun idx => getBitAtIndex f.filter idx != 0))
  | _ => none

/-- From `src/bloom-filter.ts` `equals(other)`: `false` if `_size`, `_nbHashes`
or `_length` differ, else `this._filter.every((value, index) =>
other._filter[index] === value)`.  An out-of-range JS read is `undefined`,
never `===` to a number, which `Option` equality models. -/
def BloomFilter.equals (f other : BloomFilter) : Bool :=
  if f.size = other.size ∧ f.nbHashes = other.nbHashes ∧ f.length = other.length then
    (List.range f.filter.length).all
      (fun index => other.filter.get? index == f.filter.get? index)
  else false

/-- From `src/bloom-filter.ts` `export()`: allocate `filter.length + 4 * 8` zero
bytes, `set` the four encoded fields at offsets 0, 8, 16, 24, then copy the
bit buffer byte by byte starting at offset 32 (the copy loop writes exactly
the range the final `uint8ArraySet` overwrites). -/
def BloomFilter.exportFilter (f : BloomFilter) : List Nat :=
  let exportArray := List.replicate (f.filter.length + 4 * 8) 0
  let e1 := uint8ArraySet exportArray (int64ToUint8Array f.seed) 0
  let e2 := uint8ArraySet e1 (int64ToUint8Array f.nbHashes) 8
  let e3 := uint8ArraySet e2 (int64ToUint8Array f.length) 16
  let e4 := uint8ArraySet e3 (int64ToUint8Array f.size) 24
  uint8ArraySet e4 f.filter 32

/-- The `(first, second)` state recurrence of the `getDistinctIndices` loop
before any reseed: starting from the two base hashes, after the body with
counter `i = n` the state is
`(first + second) % size, (second + n) % size`.  `gdiState hashA hashB size n`
is the state read at the top of body `n + 1`. -/
def gdiState (hashA hashB size : Nat) : Nat → Nat × Nat
  | 0 => (hashA, hashB)
  | n + 1 =>
    let st := gdiState hashA hashB size n
    ((st.1 + st.2) % size, (st.2 + (n + 1)) % size)

/-- The `n`-th candidate index (`index = first % size`) produced by the
`getDistinctIndices` loop, counting from 0, assuming no reseed occurred. -/
def gdiCandidate (hashA hashB size n : Nat) : Nat :=
  (gdiState hashA hashB size n).1 % size

/-- A concrete hash function used to instantiate witnesses. -/
def testHash : Nat → Nat → Nat :=
  fun value seedValue => value + seedValue

/-! ### Helper lemmas: the bit-packed store -/

theorem getD_set_self (l : List Nat) (i a : Nat) (h : i < l.length) :
    (l.set i a).getD i 0 = a := by
  simp [List.getD_eq_getD_get?, List.get?_eq_getElem?, List.getElem?_set, h]

theorem getD_set_ne (l : List Nat) (i j a : Nat) (h : i ≠ j) :
    (l.set i a).getD j 0 = l.getD j 0 := by
  simp [List.getD_eq_getD_get?, List.get?_eq_getElem?, List.getElem?_set, h]

theorem getD_set_out_of_range (l : List Nat) (i a : Nat) (h : l.length ≤ i) :
    (l.set i a).getD i 0 = l.getD i 0 := by
  rw [List.set_eq_of_length_le h]

/-- Reading a bit: `getBitAtIndex` reads exactly bit `bitIndex % 8` of byte `bitIndex / 8`. -/
theorem getBitAtIndex_eq_testBit (array : List Nat) (bitIndex : Nat) :
    getBitAtIndex array bitIndex =
      ((array.getD (bitIndex / 8) 0).testBit (bitIndex % 8)).toNat := by
  show (array.getD (bitIndex / 8) 0 &&& (0 ||| 1 <<< (bitIndex % 8))) >>> (bitIndex % 8) = _
  rw [Nat.zero_or, Nat.one_shiftLeft, Nat.and_two_pow, Nat.shiftRight_eq_div_pow]
  exact Nat.mul_div_cancel _ (Nat.pos_pow_of_pos _ (by norm_num))

theorem testBit_setBitInByte_self (idx byte : Nat) :
    (setBitInByte idx byte).testBit idx = true := by
  show (byte ||| 1 <<< idx).testBit idx = true
  rw [Nat.one_shiftLeft, Nat.testBit_lor, Nat.testBit_two_pow_self, Bool.or_true]

theorem testBit_setBitInByte_mono (idx byte j : Nat) (h : byte.testBit j = true) :
    (setBitInByte idx byte).testBit j = true := by
  show (byte ||| 1 <<< idx).testBit j = true
  rw [Nat.testBit_lor, h, Bool.true_or]

theorem setBitAtIndex_length (filter : List Nat) (bitIndex : Nat) :
    (setBitAtIndex filter bitIndex).length = filter.length :=
  List.length_set ..

theorem getBitAtIndex_setBitAtIndex_self (filter : List Nat) (j : Nat)
    (h : j / 8 < filter.length) :
    getBitAtIndex (setBitAtIndex filter j) j = 1 := by
  rw [getBitAtIndex_eq_testBit]
  show (((filter.set (j / 8) (setBitInByte (j % 8) (filter.getD (j / 8) 0))).getD
    (j / 8) 0).testBit (j % 8)).toNat = 1
  rw [getD_set_self _ _ _ h, testBit_setBitInByte_self]
  rfl

theorem getBitAtIndex_setBitAtIndex_mono (filter : List Nat) (k j : Nat)
    (h : getBitAtIndex filter j = 1) :
    getBitAtIndex (setBitAtIndex filter k) j = 1 := by
  rw [getBitAtIndex_eq_testBit] at h ⊢
  have hj : (filter.getD (j / 8) 0).testBit (j % 8) = true := by
    rcases hb : (filter.getD (j / 8) 0).testBit (j % 8) with _ | _
    · rw [hb] at h; cases h
    · rfl
  show (((filter.set (k / 8) (setBitInByte (k % 8) (filter.getD (k / 8) 0))).getD
    (j / 8) 0).testBit (j % 8)).toNat = 1
  by_cases hbyte : k / 8 = j / 8
  · rw [hbyte]
    by_cases hlen : j / 8 < filter.length
    · rw [getD_set_self _ _ _ hlen, testBit_setBitInByte_mono _ _ _ hj]; rfl
    · rw [getD_set_out_of_range _ _ _ (le_of_not_lt hlen), hj]; rfl
  · rw [getD_set_ne _ _ _ _ hbyte, hj]; rfl

theorem foldl_setBitAtIndex_length (idxs : List Nat) (filter : List Nat) :
    (idxs.foldl setBitAtIndex filter).length = filter.length := by
  induction idxs generalizing filter with
  | nil => rfl
  | cons x xs ih => rw [List.foldl_cons, ih, setBitAtIndex_length]

theorem foldl_setBitAtIndex_mono (idxs : List Nat) (filter : List Nat) (j : Nat)
    (h : getBitAtIndex filter j = 1) :
    getBitAtIndex (idxs.foldl setBitAtIndex filter) j = 1 := by
  induction idxs generalizing filter with
  | nil => exact h
  | cons x xs ih => exact ih _ (getBitAtIndex_setBitAtIndex_mono _ _ _ h)

theorem foldl_setBitAtIndex_sets (idxs : List Nat) (filter : List Nat) (j : Nat)
    (hj : j ∈ idxs) (hlen : j / 8 < filter.length) :
    getBitAtIndex (idxs.foldl setBitAtIndex filter) j = 1 := by
  induction idxs generalizing filter with
  | nil => cases hj
  | cons x xs ih =>
    rw [List.foldl_cons]
    rcases List.mem_cons.mp hj with rfl | hmem
    · exact foldl_setBitAtIndex_mono _ _ _ (getBitAtIndex_setBitAtIndex_self _ _ hlen)
    · exact ih _ hmem (by rw [setBitAtIndex_length]; exact hlen)

theorem getBitAtIndex_replicate_zero (n j : Nat) :
    getBitAtIndex (List.replicate n 0) j = 0 := by
  rw [getBitAtIndex_eq_testBit]
  have hz : (List.replicate n 0).getD (j / 8) 0 = 0 := by
    rcases lt_or_ge (j / 8) n with h | h
    · simp [List.getD_eq_getD_get?, List.get?_eq_getElem?, List.getElem?_replicate, h]
    · rw [List.getD_eq_getD_get?, List.get?_eq_getElem?, List.getElem?_eq_none (by simpa using h)]
      rfl
  rw [hz, Nat.zero_testBit]
  rfl

theorem getUint8ArrayLength_eq (bitCount : Nat) :
    getUint8ArrayLength bitCount = bitCount / 8 + 1 := by
  show (bitCount + (8 - bitCount % 8)) / 8 = bitCount / 8 + 1
  omega

/-! ### Helper lemmas: the index-generation loop -/

/-- Loop invariant of `getDistinctIndices`: when the loop returns normally,
the accumulator properties (no duplicates, all below `size`, length bounded
by the request) give the output contract. -/
theorem getDistinctIndicesAux_ok_spec (H : α → Nat → Nat) (element : α)
    (size number maxIterations : Nat) (hsize : 1 ≤ size) :
    ∀ fuel first second seed i indices res,
      getDistinctIndicesAux H element size number maxIterations fuel
        first second seed i indices = .ok res →
      indices.Nodup → (∀ x ∈ indices, x < size) → indices.length ≤ number →
      res.length = number ∧ res.Nodup ∧ ∀ x ∈ res, x < size := by
  intro fuel
  induction fuel with
  | zero =>
    intro first second seed i indices res h
    cases h
  | succ fuel ih =>
    intro first second seed i indices res h hnd hlt hlen
    rw [getDistinctIndicesAux] at h
    by_cases hguard : number ≤ indices.length
    · rw [if_pos hguard] at h
      cases h
      exact ⟨le_antisymm hlen hguard, hnd, hlt⟩
    · rw [if_neg hguard] at h
      by_cases hthrow : maxIterations ≠ 0 ∧ maxIterations < i + 1
      · rw [if_pos hthrow] at h
        cases h
      · rw [if_neg hthrow] at h
        refine ih _ _ _ _ _ _ h ?_ ?_ ?_
        · by_cases hc : indices.contains (first % size)
          · rw [if_pos hc]; exact hnd
          · rw [if_neg hc]
            exact hnd.append (List.nodup_singleton _)
              (by simp [List.disjoint_singleton]; simpa using hc)
        · intro x hx
          by_cases hc : indices.contains (first % size)
          · rw [if_pos hc] at hx; exact hlt x hx
          · rw [if_neg hc] at hx
            rcases List.mem_append.mp hx with hx | hx
            · exact hlt x hx
            · rw [List.mem_singleton.mp hx]
              exact Nat.mod_lt _ hsize
        · by_cases hc : indices.contains (first % size)
          · rw [if_pos hc]; omega
          · rw [if_neg hc, List.length_append, List.length_singleton]; omega

/-- The fuel `maxIterations + 1` given to the loop is never exhausted when
the iteration ceiling is positive: either the throw or a normal return
happens first. -/
theorem getDistinctIndicesAux_no_diverge (H : α → Nat → Nat) (element : α)
    (size number maxIterations : Nat) (hmax : 1 ≤ maxIterations) :
    ∀ fuel first second seed i indices,
      maxIterations + 2 ≤ fuel + i → i ≤ maxIterations + 1 →
      getDistinctIndicesAux H element size number maxIterations fuel
        first second seed i indices ≠ .diverge := by
  intro fuel
  induction fuel with
  | zero =>
    intro first second seed i indices h1 h2
    omega
  | succ fuel ih =>
    intro first second seed i indices h1 h2
    rw [getDistinctIndicesAux]
    by_cases hguard : number ≤ indices.length
    · rw [if_pos hguard]
      intro h
      cases h
    · rw [if_neg hguard]
      by_cases hthrow : maxIterations ≠ 0 ∧ maxIterations < i + 1
      · rw [if_pos hthrow]
        intro h
        cases h
      · rw [if_neg hthrow]
        exact ih _ _ _ _ _ (by omega) (by omega)

/-- Top-level form of the loop invariant, stated on `getDistinctIndices`. -/
theorem getDistinctIndices_ok_spec (H : α → Nat → Nat) (element : α)
    (size number seed maxIterations : Nat) (hsize : 1 ≤ size) (res : List Nat)
    (h : getDistinctIndices H element size number seed maxIterations = .ok res) :
    res.length = number ∧ res.Nodup ∧ ∀ x ∈ res, x < size :=
  getDistinctIndicesAux_ok_spec H element size number maxIterations hsize
    _ _ _ _ _ _ _ h (List.nodup_nil) (by simp) (by simp)

/-! ### Helper lemmas: add and addAll -/

/-- Inversion for a successful `add`: the generated index set and the shape
of the updated filter. -/
theorem BloomFilter.add_some (H : α → Nat → Nat) (f f1 : BloomFilter) (e : α)
    (h : f.add H e = some f1) :
    ∃ idxs, getDistinctIndices H e f.size f.nbHashes f.seed (f.size * 100) = .ok idxs ∧
      f1 = { f with filter := idxs.foldl setBitAtIndex f.filter, length := f.length + 1 } := by
  unfold BloomFilter.add at h
  cases hg : getDistinctIndices H e f.size f.nbHashes f.seed (f.size * 100) with
  | ok idxs =>
    rw [hg] at h
    exact ⟨idxs, rfl, (Option.some_injective _ h).symm⟩
  | throwMax => rw [hg] at h; cases h
  | diverge => rw [hg] at h; cases h

/-- A successful `add` preserves the configuration fields, keeps the buffer
length, and never clears a set bit. -/
theorem BloomFilter.add_preserves (H : α → Nat → Nat) (f f1 : BloomFilter) (e : α)
    (h : f.add H e = some f1) :
    f1.size = f.size ∧ f1.nbHashes = f.nbHashes ∧ f1.seed = f.seed ∧
      f1.filter.length = f.filter.length ∧
      ∀ j, getBitAtIndex f.filter j = 1 → getBitAtIndex f1.filter j = 1 := by
  obtain ⟨idxs, _, rfl⟩ := BloomFilter.add_some H f f1 e h
  exact ⟨rfl, rfl, rfl, foldl_setBitAtIndex_length .., fun j hj =>
    foldl_setBitAtIndex_mono _ _ _ hj⟩

/-- Sequencing: `addAll` preserves the same properties as each single `add`. -/
theorem BloomFilter.addAll_preserves (H : α → Nat → Nat) (es : List α) :
    ∀ (f f2 : BloomFilter), f.addAll H es = some f2 →
    f2.size = f.size ∧ f2.nbHashes = f.nbHashes ∧ f2.seed = f.seed ∧
      f2.filter.length = f.filter.length ∧
      ∀ j, getBitAtIndex f.filter j = 1 → getBitAtIndex f2.filter j = 1 := by
  induction es with
  | nil =>
    intro f f2 h
    cases h
    exact ⟨rfl, rfl, rfl, rfl, fun j hj => hj⟩
  | cons e es ih =>
    intro f f2 h
    unfold BloomFilter.addAll at h
    cases ha : f.add H e with
    | none => rw [ha] at h; cases h
    | some f1 =>
      rw [ha] at h
      obtain ⟨h1, h2, h3, h4, h5⟩ := BloomFilter.add_preserves H f f1 e ha
      obtain ⟨g1, g2, g3, g4, g5⟩ := ih f1 f2 h
      exact ⟨g1.trans h1, g2.trans h2, g3.trans h3, g4.trans h4,
        fun j hj => g5 j (h5 j hj)⟩

/-- C1 no false negatives, claim theorem below uses this core fact:
after a successful `add e` and any successful later adds, every index that
`add` set is still set and in range. -/
theorem BloomFilter.add_sets_bits (H : α → Nat → Nat) (f f1 : BloomFilter) (e : α)
    (hsize : 1 ≤ f.size) (hwf : f.filter.length = getUint8ArrayLength f.size)
    (hadd : f.add H e = some f1) (idxs : List Nat)
    (hg : getDistinctIndices H e f.size f.nbHashes f.seed (f.size * 100) = .ok idxs) :
    ∀ j ∈ idxs, getBitAtIndex f1.filter j = 1 := by
  obtain ⟨idxs2, hg2, rfl⟩ := BloomFilter.add_some H f f1 e hadd
  rw [hg] at hg2
  cases hg2
  intro j hj
  obtain ⟨-, -, hlt⟩ :=
    getDistinctIndices_ok_spec H e f.size f.nbHashes f.seed (f.size * 100) hsize idxs hg
  have hjs : j < f.size := hlt j hj
  refine foldl_setBitAtIndex_sets idxs f.filter j hj ?_
  rw [hwf, getUint8ArrayLength_eq]
  omega

/-! ### Claim theorems -/

/-- C1.  No false negatives: for every element `e` and every filter
(`size ≥ 1`, `hashCount` in `[1, size]`, buffer of the allocated length),
after a call `add e` that returns normally, `has e` returns `true`, for any
sequence of subsequent `add` calls that also return normally (prior `add`
calls are covered by the generality of `f`, since `add` preserves the
hypotheses). -/
theorem bloomFilter_no_false_negatives {α : Type} (H : α → Nat → Nat)
    (f : BloomFilter) (e : α)
    (hsize : 1 ≤ f.size) (hhash1 : 1 ≤ f.nbHashes) (hhash2 : f.nbHashes ≤ f.size)
    (hwf : f.filter.length = getUint8ArrayLength f.size)
    (f1 : BloomFilter) (hadd : f.add H e = some f1)
    (es : List α) (f2 : BloomFilter) (hrest : f1.addAll H es = some f2) :
    f2.has H e = some true := by
  obtain ⟨idxs, hg, hf1⟩ := BloomFilter.add_some H f f1 e hadd
  have hbits1 := BloomFilter.add_sets_bits H f f1 e hsize hwf hadd idxs hg
  obtain ⟨h1, h2, h3, h4, h5⟩ := BloomFilter.addAll_preserves H es f1 f2 hrest
  have hb2 : ∀ j ∈ idxs, getBitAtIndex f2.filter j = 1 := fun j hj => h5 j (hbits1 j hj)
  have hf1size : f1.size = f.size := by rw [hf1]
  have hf1hash : f1.nbHashes = f.nbHashes := by rw [hf1]
  have hf1seed : f1.seed = f.seed := by rw [hf1]
  unfold BloomFilter.has
  rw [h1, h2, h3, hf1size, hf1hash, hf1seed, hg]
  show some (idxs.all fun idx => getBitAtIndex f2.filter idx != 0) = some true
  rw [Option.some_inj, List.all_eq_true]
  intro x hx
  rw [hb2 x hx]
  rfl

/-- Witness for C1: the filter `new 2 2` after `add 0` and then `add 1`
(whose state is written out explicitly) answers `has 0` with `true`. -/
theorem bloomFilter_no_false_negatives_witness :
    BloomFilter.has testHash
      { size := 2, nbHashes := 2, filter := [3], length := 2, seed := 0x1234567890 }
      0 = some true :=
  bloomFilter_no_false_negatives testHash (BloomFilter.new 2 2) 0
    (by decide) (by decide) (by decide) (by decide)
    { size := 2, nbHashes := 2, filter := [3], length := 1, seed := 0x1234567890 }
    (by decide) [1]
    { size := 2, nbHashes := 2, filter := [3], length := 2, seed := 0x1234567890 }
    (by decide)

/-- C5.  Hash-engine contract: whenever `getDistinctIndices` returns
normally with `size ≥ 1` and requested count at most `size`, the result has
exactly `number` pairwise-distinct entries, all in `[0, size)`. -/
theorem getDistinctIndices_contract {α : Type} (H : α → Nat → Nat) (element : α)
    (size number seed maxIterations : Nat)
    (hsize : 1 ≤ size) (hnum : number ≤ size) (idxs : List Nat)
    (h : getDistinctIndices H element size number seed maxIterations = .ok idxs) :
    idxs.length = number ∧ idxs.Nodup ∧ ∀ x ∈ idxs, x < size :=
  getDistinctIndices_ok_spec H element size number seed maxIterations hsize idxs h

/-- Witness for C5 at a concrete successful run. -/
theorem getDistinctIndices_contract_witness :
    ([1, 0] : List Nat).length = 2 ∧ ([1, 0] : List Nat).Nodup ∧
      ∀ x ∈ ([1, 0] : List Nat), x < 2 :=
  getDistinctIndices_contract testHash 0 2 2 0 200 (by decide) (by decide) [1, 0] (by decide)

/-- C6.  Bounded termination: with a positive iteration ceiling (the default
`size * 100` included, for any `size ≥ 1`), `getDistinctIndices` either
returns normally or throws the `max iterations exceeded` error — the
embedding fuel is never exhausted, so the loop cannot run forever. -/
theorem getDistinctIndices_terminates {α : Type} (H : α → Nat → Nat) (element : α)
    (size number seed maxIterations : Nat) (hmax : 1 ≤ maxIterations) :
    (∃ l, getDistinctIndices H element size number seed maxIterations = .ok l) ∨
      getDistinctIndices H element size number seed maxIterations = .throwMax := by
  have hnd := getDistinctIndicesAux_no_diverge H element size number maxIterations hmax
    (maxIterations + 1) (hashTwice H element seed).1 (hashTwice H element seed).2 seed 1 []
    (by omega) (by omega)
  cases hg : getDistinctIndices H element size number seed maxIterations with
  | ok l => exact .inl ⟨l, rfl⟩
  | throwMax => exact .inr rfl
  | diverge => exact absurd hg hnd

/-- Witness for C6 at the pathological configuration used by the test suite
of the repository (`size = 7`, `hashCount = 7`, ceiling 700). -/
theorem getDistinctIndices_terminates_witness :
    (∃ l, getDistinctIndices testHash 0 7 7 0 700 = .ok l) ∨
      getDistinctIndices testHash 0 7 7 0 700 = .throwMax :=
  getDistinctIndices_terminates testHash 0 7 7 0 700 (by decide)

/-- C7.  Atomicity of `add`: if index generation succeeds, `add` returns the
filter with all generated bits set, the count incremented by exactly one and
everything else unchanged; if index generation throws, `add` fails producing
no new state at all (the failure happens before any mutation). -/
theorem bloomFilter_add_atomic {α : Type} (H : α → Nat → Nat) (f : BloomFilter) (e : α)
    (hsize : 1 ≤ f.size) (hwf : f.filter.length = getUint8ArrayLength f.size) :
    (∀ idxs, getDistinctIndices H e f.size f.nbHashes f.seed (f.size * 100) = .ok idxs →
      ∃ f1, f.add H e = some f1 ∧ f1.length = f.length + 1 ∧ f1.size = f.size ∧
        f1.nbHashes = f.nbHashes ∧ f1.seed = f.seed ∧
        f1.filter.length = f.filter.length ∧ ∀ j ∈ idxs, getBitAtIndex f1.filter j = 1) ∧
    ((getDistinctIndices H e f.size f.nbHashes f.seed (f.size * 100) = .throwMax ∨
      getDistinctIndices H e f.size f.nbHashes f.seed (f.size * 100) = .diverge) →
      f.add H e = none) := by
  constructor
  · intro idxs hg
    have hadd : f.add H e =
        some { f with filter := idxs.foldl setBitAtIndex f.filter, length := f.length + 1 } := by
      unfold BloomFilter.add
      rw [hg]
    refine ⟨_, hadd, rfl, rfl, rfl, rfl, foldl_setBitAtIndex_length .., ?_⟩
    exact BloomFilter.add_sets_bits H f _ e hsize hwf hadd idxs hg
  · intro hg
    unfold BloomFilter.add
    rcases hg with hg | hg <;> rw [hg]

/-- Witness for C7, success branch at a concrete filter. -/
theorem bloomFilter_add_atomic_witness :
    ∃ f1, BloomFilter.add testHash (BloomFilter.new 2 2) 0 = some f1 ∧
      f1.length = (BloomFilter.new 2 2).length + 1 ∧ f1.size = (BloomFilter.new 2 2).size ∧
      f1.nbHashes = (BloomFilter.new 2 2).nbHashes ∧ f1.seed = (BloomFilter.new 2 2).seed ∧
      f1.filter.length = (BloomFilter.new 2 2).filter.length ∧
      ∀ j ∈ [1, 0], getBitAtIndex f1.filter j = 1 :=
  (bloomFilter_add_atomic testHash (BloomFilter.new 2 2) 0 (by decide) (by decide)).1
    [1, 0] (by decide)

/-- C10.  A freshly constructed filter (`size ≥ 1`, `hashCount` in
`[1, size]`) rejects every element: whenever `has` returns normally on it,
the answer is `false`, because the buffer is all zeros and at least one
index is checked. -/
theorem bloomFilter_new_has_false {α : Type} (H : α → Nat → Nat)
    (size nbHashes : Nat) (e : α)
    (h1 : 1 ≤ size) (h2 : 1 ≤ nbHashes) (h3 : nbHashes ≤ size) (b : Bool)
    (hb : (BloomFilter.new size nbHashes).has H e = some b) : b = false := by
  unfold BloomFilter.has at hb
  cases hg : getDistinctIndices H e (BloomFilter.new size nbHashes).size
      (BloomFilter.new size nbHashes).nbHashes (BloomFilter.new size nbHashes).seed
      ((BloomFilter.new size nbHashes).size * 100) with
  | ok idxs =>
    rw [hg] at hb
    obtain ⟨hlen, -, -⟩ := getDistinctIndices_ok_spec H e
      (BloomFilter.new size nbHashes).size (BloomFilter.new size nbHashes).nbHashes
      (BloomFilter.new size nbHashes).seed ((BloomFilter.new size nbHashes).size * 100)
      h1 idxs hg
    have hne : idxs ≠ [] := by
      intro hnil
      rw [hnil] at hlen
      show False
      have : nbHashes = 0 := hlen.symm
      omega
    obtain ⟨x, hx⟩ := List.exists_mem_of_ne_nil idxs hne
    have hbit : getBitAtIndex (BloomFilter.new size nbHashes).filter x = 0 :=
      getBitAtIndex_replicate_zero _ _
    have hall : (idxs.all fun idx =>
        getBitAtIndex (BloomFilter.new size nbHashes).filter idx != 0) = false := by
      rw [List.all_eq_false]
      exact ⟨x, hx, by simp [hbit]⟩
    rw [Option.some_inj] at hb
    rw [← hb, hall]
  | throwMax => rw [hg] at hb; cases hb
  | diverge => rw [hg] at hb; cases hb

/-- Witness for C10 at a concrete fresh filter. -/
theorem bloomFilter_new_has_false_witness :
    (BloomFilter.new 2 2).has testHash 0 = some false ∧ false = false :=
  ⟨by decide, bloomFilter_new_has_false testHash 2 2 0 (by decide) (by decide) (by decide)
    false (by decide)⟩

/-! ### Helper lemmas: enhanced double hashing closed form -/

theorem two_dvd_mul_succ (n : Nat) : 2 ∣ n * (n + 1) :=
  (Nat.even_mul_succ_self n).two_dvd

theorem six_dvd_cube_sub (n : Nat) : 6 ∣ n ^ 3 - n := by
  induction n with
  | zero => decide
  | succ n ih =>
    obtain ⟨k, hk⟩ := ih
    obtain ⟨m, hm⟩ := two_dvd_mul_succ n
    have h1 : (n + 1) ^ 3 = n ^ 3 + 3 * n ^ 2 + 3 * n + 1 := by ring
    have h2 : n ≤ n ^ 3 := Nat.le_self_pow (by norm_num) n
    have h4 : n * (n + 1) = n ^ 2 + n := by ring
    exact ⟨k + m, by omega⟩

theorem triangular_step (n : Nat) :
    n * (n + 1) / 2 + (n + 1) = (n + 1) * (n + 2) / 2 := by
  obtain ⟨m, hm⟩ := two_dvd_mul_succ n
  have h2 : (n + 1) * (n + 2) = n * (n + 1) + 2 * (n + 1) := by ring
  omega

theorem cube_sub_step (n : Nat) :
    (n ^ 3 - n) / 6 + n * (n + 1) / 2 = ((n + 1) ^ 3 - (n + 1)) / 6 := by
  obtain ⟨k, hk⟩ := six_dvd_cube_sub n
  obtain ⟨m, hm⟩ := two_dvd_mul_succ n
  have h1 : (n + 1) ^ 3 = n ^ 3 + 3 * n ^ 2 + 3 * n + 1 := by ring
  have h2 : n ≤ n ^ 3 := Nat.le_self_pow (by norm_num) n
  have h4 : n * (n + 1) = n ^ 2 + n := by ring
  omega

/-- Both components of the loop-state recurrence, reduced mod `size`, have
closed forms: first component `a + n*b + (n^3 - n)/6`, second component
`b + n*(n+1)/2`. -/
theorem gdiState_closed (a b size : Nat) :
    ∀ n, (gdiState a b size n).1 % size = (a + n * b + (n ^ 3 - n) / 6) % size ∧
      (gdiState a b size n).2 % size = (b + n * (n + 1) / 2) % size := by
  intro n
  induction n with
  | zero => simp [gdiState]
  | succ n ih =>
    obtain ⟨ih1, ih2⟩ := ih
    have hfst : (gdiState a b size (n + 1)).1 =
        ((gdiState a b size n).1 + (gdiState a b size n).2) % size := rfl
    have hsnd : (gdiState a b size (n + 1)).2 =
        ((gdiState a b size n).2 + (n + 1)) % size := rfl
    constructor
    · rw [hfst, Nat.mod_mod_of_dvd _ dvd_rfl]
      calc ((gdiState a b size n).1 + (gdiState a b size n).2) % size
          = ((gdiState a b size n).1 % size + (gdiState a b size n).2 % size) % size :=
            Nat.add_mod _ _ _
        _ = ((a + n * b + (n ^ 3 - n) / 6) % size + (b + n * (n + 1) / 2) % size) % size := by
            rw [ih1, ih2]
        _ = (a + n * b + (n ^ 3 - n) / 6 + (b + n * (n + 1) / 2)) % size :=
            (Nat.add_mod _ _ _).symm
        _ = (a + (n + 1) * b + ((n + 1) ^ 3 - (n + 1)) / 6) % size := by
            rw [← cube_sub_step n]
            congr 1
            have hb : (n + 1) * b = n * b + b := by ring
            omega
    · rw [hsnd, Nat.mod_mod_of_dvd _ dvd_rfl]
      calc ((gdiState a b size n).2 + (n + 1)) % size
          = ((gdiState a b size n).2 % size + (n + 1)) % size := by
            rw [Nat.mod_add_mod]
        _ = ((b + n * (n + 1) / 2) % size + (n + 1)) % size := by rw [ih2]
        _ = (b + n * (n + 1) / 2 + (n + 1)) % size := by rw [Nat.mod_add_mod]
        _ = (b + (n + 1) * (n + 2) / 2) % size := by
            rw [← triangular_step n]
            congr 1
            omega

/-- Bridge between the loop of `getDistinctIndices` and the state recurrence
`gdiState`: as long as no reseed can have happened (`n < size`), no early
return (`n < number`) and no throw (`n + 1 ≤ maxIterations`), the run of
`getDistinctIndices` is the run of the loop from state `gdiState n` at
counter `n + 1`, so the candidate examined next is `gdiCandidate n`. -/
theorem getDistinctIndices_reaches_state {α : Type} (H : α → Nat → Nat) (element : α)
    (size number seed maxIterations : Nat) :
    ∀ n, n < size → n < number → n + 1 ≤ maxIterations →
    ∃ indices : List Nat, indices.length ≤ n ∧
      getDistinctIndices H element size number seed maxIterations =
        getDistinctIndicesAux H element size number maxIterations (maxIterations + 1 - n)
          (gdiState (hashTwice H element seed).1 (hashTwice H element seed).2 size n).1
          (gdiState (hashTwice H element seed).1 (hashTwice H element seed).2 size n).2
          seed (n + 1) indices := by
  intro n
  induction n with
  | zero =>
    intro h1 h2 h3
    exact ⟨[], by simp, rfl⟩
  | succ n ih =>
    intro h1 h2 h3
    obtain ⟨indices, hlen, heq⟩ := ih (by omega) (by omega) (by omega)
    rw [show maxIterations + 1 - n = (maxIterations - n - 1) + 1 + 1 from by omega] at heq
    rw [getDistinctIndicesAux] at heq
    rw [if_neg (by omega : ¬ number ≤ indices.length)] at heq
    dsimp only [] at heq
    rw [if_neg (by omega : ¬ size < n + 1 + 1)] at heq
    rw [if_neg (by omega : ¬ (maxIterations ≠ 0 ∧ maxIterations < n + 1 + 1))] at heq
    refine ⟨if indices.contains
        ((gdiState (hashTwice H element seed).1 (hashTwice H element seed).2 size n).1 % size)
      then indices else indices ++
        [(gdiState (hashTwice H element seed).1 (hashTwice H element seed).2 size n).1 % size],
      ?_, ?_⟩
    · by_cases hc : indices.contains
        ((gdiState (hashTwice H element seed).1 (hashTwice H element seed).2 size n).1 % size)
      · rw [if_pos hc]; omega
      · rw [if_neg hc, List.length_append, List.length_singleton]; omega
    · rw [heq]
      rw [show maxIterations + 1 - (n + 1) = (maxIterations - n - 1) + 1 from by omega]
      rfl

/-- C8.  Enhanced-double-hashing closed form: for `n < size` (the first
`n + 1` candidates are produced without a reseed), the `n`-th candidate
index of the iterative updates of `getDistinctIndices` equals
`doubleHashing n hashA hashB size`, i.e. `|hashA + n*hashB + (n^3 - n)/6|
mod size`; and (second conjunct) the run of `getDistinctIndices` really is
sitting at state `gdiState n` when it examines that candidate, whenever the
run is long enough (`n < number`) and below the ceiling. -/
theorem gdiCandidate_eq_doubleHashing (hashA hashB size n : Nat) (hn : n < size) :
    gdiCandidate hashA hashB size n = doubleHashing n hashA hashB size ∧
    ∀ (H : Nat → Nat → Nat) (element number seed maxIterations : Nat),
      (hashTwice H element seed).1 = hashA → (hashTwice H element seed).2 = hashB →
      n < number → n + 1 ≤ maxIterations →
      ∃ indices : List Nat, indices.length ≤ n ∧
        getDistinctIndices H element size number seed maxIterations =
          getDistinctIndicesAux H element size number maxIterations (maxIterations + 1 - n)
            (gdiState hashA hashB size n).1 (gdiState hashA hashB size n).2
            seed (n + 1) indices := by
  constructor
  · show (gdiState hashA hashB size n).1 % size = _
    rw [(gdiState_closed hashA hashB size n).1]
    rfl
  · intro H element number seed maxIterations ha hb hnum hmax
    rw [← ha, ← hb]
    exact getDistinctIndices_reaches_state H element size number seed maxIterations n
      hn hnum hmax

/-- Witness for C8 at `hashA = 5`, `hashB = 3`, `size = 10`, `n = 2`. -/
theorem gdiCandidate_eq_doubleHashing_witness :
    (2 < 10 ∧ gdiCandidate 5 3 10 2 = doubleHashing 2 5 3 10) ∧
      gdiCandidate 5 3 10 2 = 2 :=
  ⟨⟨by decide, (gdiCandidate_eq_doubleHashing 5 3 10 2 (by decide)).1⟩, by decide⟩

/-! ### Helper lemmas: the binary codec and the export layout -/

theorem int32ToUint8Array_length (n : Nat) : (int32ToUint8Array n).length = 4 := rfl

theorem int64ToUint8Array_length (n : Nat) : (int64ToUint8Array n).length = 8 := rfl

/-- Decoding inverts encoding on every value that fits in 8 bytes. -/
theorem uint8ArrayToInt64_int64ToUint8Array (n : Nat) (h : n < 2 ^ 64) :
    uint8ArrayToInt64 (int64ToUint8Array n) = n := by
  show uint8ArrayToInt64Aux _ 0 0 = n
  simp only [int64ToUint8Array, int32ToUint8Array, List.cons_append, List.nil_append,
    uint8ArrayToInt64Aux]
  norm_num
  omega

/-- The big-endian byte list produced by `int64ToUint8Array`, written
positionally. -/
theorem int64ToUint8Array_bigEndian (n : Nat) (h : n < 2 ^ 64) :
    int64ToUint8Array n =
      [n / 2 ^ 56 % 256, n / 2 ^ 48 % 256, n / 2 ^ 40 % 256, n / 2 ^ 32 % 256,
       n / 2 ^ 24 % 256, n / 2 ^ 16 % 256, n / 2 ^ 8 % 256, n % 256] := by
  simp only [int64ToUint8Array, int32ToUint8Array, List.cons_append, List.nil_append,
    List.cons.injEq, and_true]
  norm_num
  omega

theorem take8_append (s rest : List Nat) (hs : s.length = 8) : (s ++ rest).take 8 = s := by
  rw [← hs, List.take_left]

theorem drop8_append (s rest : List Nat) (hs : s.length = 8) : (s ++ rest).drop 8 = rest := by
  rw [← hs, List.drop_left]

theorem drop8_add_append (s rest : List Nat) (hs : s.length = 8) (k : Nat) :
    (s ++ rest).drop (8 + k) = rest.drop k := by
  rw [← hs, List.drop_append]

/-- Writing with `Uint8Array.set` at the end of an already-written prefix, into zero
padding. -/
theorem uint8ArraySet_step (x : List Nat) (m : Nat) (src : List Nat) (off : Nat)
    (hoff : off = x.length) :
    uint8ArraySet (x ++ List.replicate m 0) src off =
      (x ++ src) ++ List.replicate (m - src.length) 0 := by
  subst hoff
  show (x ++ List.replicate m 0).take x.length ++ src ++
      (x ++ List.replicate m 0).drop (x.length + src.length) = _
  rw [List.take_left, List.drop_append, List.drop_replicate, List.append_assoc]

/-- The export buffer is the four encoded header fields followed by the bit
buffer. -/
theorem exportFilter_eq (f : BloomFilter) :
    f.exportFilter = int64ToUint8Array f.seed ++ (int64ToUint8Array f.nbHashes ++
      (int64ToUint8Array f.length ++ (int64ToUint8Array f.size ++ f.filter))) := by
  show uint8ArraySet (uint8ArraySet (uint8ArraySet (uint8ArraySet
      (uint8ArraySet (List.replicate (f.filter.length + 4 * 8) 0)
        (int64ToUint8Array f.seed) 0)
      (int64ToUint8Array f.nbHashes) 8)
      (int64ToUint8Array f.length) 16)
      (int64ToUint8Array f.size) 24)
      f.filter 32 = _
  rw [show List.replicate (f.filter.length + 4 * 8) (0 : Nat) =
      [] ++ List.replicate (f.filter.length + 4 * 8) 0 from (List.nil_append _).symm]
  rw [uint8ArraySet_step [] _ _ 0 rfl, List.nil_append]
  rw [show f.filter.length + 4 * 8 - (int64ToUint8Array f.seed).length =
      f.filter.length + 24 from by rw [int64ToUint8Array_length]; omega]
  rw [uint8ArraySet_step _ _ _ 8 (int64ToUint8Array_length _).symm]
  rw [show f.filter.length + 24 - (int64ToUint8Array f.nbHashes).length =
      f.filter.length + 16 from by rw [int64ToUint8Array_length]; omega]
  rw [uint8ArraySet_step _ _ _ 16 (by
    rw [List.length_append, int64ToUint8Array_length, int64ToUint8Array_length])]
  rw [show f.filter.length + 16 - (int64ToUint8Array f.length).length =
      f.filter.length + 8 from by rw [int64ToUint8Array_length]; omega]
  rw [uint8ArraySet_step _ _ _ 24 (by
    rw [List.length_append, List.length_append, int64ToUint8Array_length,
      int64ToUint8Array_length, int64ToUint8Array_length])]
  rw [show f.filter.length + 8 - (int64ToUint8Array f.size).length =
      f.filter.length from by rw [int64ToUint8Array_length]; omega]
  rw [uint8ArraySet_step _ _ _ 32 (by
    rw [List.length_append, List.length_append, List.length_append,
      int64ToUint8Array_length, int64ToUint8Array_length, int64ToUint8Array_length,
      int64ToUint8Array_length])]
  rw [Nat.sub_self, List.replicate_zero, List.append_nil]
  simp [List.append_assoc]

theorem exportFilter_length (f : BloomFilter) :
    f.exportFilter.length = 32 + f.filter.length := by
  rw [exportFilter_eq]
  simp [int64ToUint8Array_length]
  omega

/-- The slices `import` takes from an export buffer are exactly the encoded
fields and the bit buffer. -/
theorem exportFilter_slices (f : BloomFilter) :
    uint8ArraySlice f.exportFilter 0 8 = int64ToUint8Array f.seed ∧
    uint8ArraySlice f.exportFilter 8 16 = int64ToUint8Array f.nbHashes ∧
    uint8ArraySlice f.exportFilter 16 24 = int64ToUint8Array f.length ∧
    uint8ArraySlice f.exportFilter 24 32 = int64ToUint8Array f.size ∧
    uint8ArraySlice f.exportFilter 32 f.exportFilter.length = f.filter := by
  have e := exportFilter_eq f
  refine ⟨?_, ?_, ?_, ?_, ?_⟩
  · show (f.exportFilter.drop 0).take (8 - 0) = _
    rw [e, List.drop_zero, Nat.sub_zero, take8_append _ _ (int64ToUint8Array_length _)]
  · show (f.exportFilter.drop 8).take (16 - 8) = _
    rw [e, drop8_append _ _ (int64ToUint8Array_length _),
      show (16 : Nat) - 8 = 8 from rfl, take8_append _ _ (int64ToUint8Array_length _)]
  · show (f.exportFilter.drop 16).take (24 - 16) = _
    rw [e, show (16 : Nat) = 8 + 8 from rfl,
      drop8_add_append _ _ (int64ToUint8Array_length _),
      drop8_append _ _ (int64ToUint8Array_length _),
      show (24 : Nat) - 16 = 8 from rfl, take8_append _ _ (int64ToUint8Array_length _)]
  · show (f.exportFilter.drop 24).take (32 - 24) = _
    rw [e, show (24 : Nat) = 8 + 16 from rfl,
      drop8_add_append _ _ (int64ToUint8Array_length _),
      show (16 : Nat) = 8 + 8 from rfl,
      drop8_add_append _ _ (int64ToUint8Array_length _),
      drop8_append _ _ (int64ToUint8Array_length _),
      show (32 : Nat) - 24 = 8 from rfl, take8_append _ _ (int64ToUint8Array_length _)]
  · show (f.exportFilter.drop 32).take (f.exportFilter.length - 32) = _
    rw [exportFilter_length, e, show (32 : Nat) = 8 + 24 from rfl,
      drop8_add_append _ _ (int64ToUint8Array_length _),
      show (24 : Nat) = 8 + 16 from rfl,
      drop8_add_append _ _ (int64ToUint8Array_length _),
      show (16 : Nat) = 8 + 8 from rfl,
      drop8_add_append _ _ (int64ToUint8Array_length _),
      drop8_append _ _ (int64ToUint8Array_length _)]
    rw [show 32 + f.filter.length - (8 + 24) = f.filter.length from by omega,
      List.take_length]

/-- Every filter equals itself under the structural `equals`. -/
theorem BloomFilter.equals_self (f : BloomFilter) : f.equals f = true := by
  unfold BloomFilter.equals
  rw [if_pos ⟨rfl, rfl, rfl⟩, List.all_eq_true]
  intro i hi
  exact beq_self_eq_true _

/-- The record produced by `importFilter`, field by field (the `mk` field
order is size, nbHashes, filter, length, seed). -/
theorem importFilter_eq_mk (b : List Nat) :
    BloomFilter.importFilter b = BloomFilter.mk
      (uint8ArrayToInt64 (uint8ArraySlice b 24 32))
      (uint8ArrayToInt64 (uint8ArraySlice b 8 16))
      (uint8ArraySlice b 32 b.length)
      (uint8ArrayToInt64 (uint8ArraySlice b 16 24))
      (uint8ArrayToInt64 (uint8ArraySlice b 0 8)) := rfl

/-- Importing an export reproduces the filter state exactly, field by
field. -/
theorem importFilter_exportFilter (f : BloomFilter)
    (h1 : f.seed < 2 ^ 64) (h2 : f.nbHashes < 2 ^ 64)
    (h3 : f.length < 2 ^ 64) (h4 : f.size < 2 ^ 64) :
    BloomFilter.importFilter f.exportFilter = f := by
  obtain ⟨hs, hh, hl, hz, hf⟩ := exportFilter_slices f
  rw [importFilter_eq_mk, hs, hh, hl, hz, hf,
    uint8ArrayToInt64_int64ToUint8Array _ h1, uint8ArrayToInt64_int64ToUint8Array _ h2,
    uint8ArrayToInt64_int64ToUint8Array _ h3, uint8ArrayToInt64_int64ToUint8Array _ h4]

/-- Appending a zero byte never changes the decoded value: a buffer shorter
than 8 bytes decodes as if padded with trailing zeros. -/
theorem uint8ArrayToInt64Aux_append_zero :
    ∀ (l : List Nat) (i acc : Nat),
      uint8ArrayToInt64Aux (l ++ [0]) i acc = uint8ArrayToInt64Aux l i acc := by
  intro l
  induction l with
  | nil =>
    intro i acc
    show uint8ArrayToInt64Aux [0] i acc = acc
    simp [uint8ArrayToInt64Aux]
  | cons x xs ih =>
    intro i acc
    simp only [List.cons_append, uint8ArrayToInt64Aux]
    exact ih _ _

/-- C2.  Serialization round-trip: importing an exported filter yields a
filter that `equals` the original.  The bounds are forced by the fixed
8-byte fields of the wire format (a JS number used as a field value is a
non-negative integer far below `2 ^ 64`; the constructor seed is
`0x1234567890` and the other fields are the constructor arguments and the
number of adds). -/
theorem bloomFilter_roundtrip (f : BloomFilter)
    (h1 : f.seed < 2 ^ 64) (h2 : f.nbHashes < 2 ^ 64)
    (h3 : f.length < 2 ^ 64) (h4 : f.size < 2 ^ 64) :
    (BloomFilter.importFilter f.exportFilter).equals f = true := by
  rw [importFilter_exportFilter f h1 h2 h3 h4]
  exact BloomFilter.equals_self f

/-- Witness for C2 at the filter reached from `new 2 2` by two adds. -/
theorem bloomFilter_roundtrip_witness :
    (BloomFilter.importFilter (BloomFilter.exportFilter
        { size := 2, nbHashes := 2, filter := [3], length := 2,
          seed := 0x1234567890 })).equals
      { size := 2, nbHashes := 2, filter := [3], length := 2, seed := 0x1234567890 } = true :=
  bloomFilter_roundtrip
    { size := 2, nbHashes := 2, filter := [3], length := 2, seed := 0x1234567890 }
    (by decide) (by decide) (by decide) (by decide)

/-- C3.  The buffer-length formula of the source is NOT `ceil(bitCount/8)`:
it always allocates `floor(bitCount/8) + 1` bytes, one byte too many
whenever `bitCount` is divisible by 8.  At the failing input `bitCount = 8`
the code yields 2 while `ceil(8/8) = (8+7)/8 = 1`; consequently a fresh
export of a fresh filter is `32 + size/8 + 1` bytes, not `32 + ceil(size/8)`. -/
theorem getUint8ArrayLength_off_by_one :
    getUint8ArrayLength 8 = 2 ∧ (8 + 7) / 8 = 1 ∧
      (∀ bitCount : Nat, getUint8ArrayLength bitCount = bitCount / 8 + 1) ∧
      ∀ size nbHashes : Nat,
        (BloomFilter.new size nbHashes).exportFilter.length = 32 + (size / 8 + 1) := by
  refine ⟨by decide, by decide, getUint8ArrayLength_eq, fun size nbHashes => ?_⟩
  rw [exportFilter_length]
  show 32 + (List.replicate (getUint8ArrayLength size) 0).length = _
  rw [List.length_replicate, getUint8ArrayLength_eq]

/-- C4.  Export header layout: the exported buffer carries, at byte offsets
0, 8, 16, 24, the big-endian 8-byte encodings of seed, hashCount,
elementCount and size, in that order, followed from offset 32 by the bit
buffer verbatim; and `import` reads exactly those slices back. -/
theorem exportFilter_header_layout (f : BloomFilter)
    (h1 : f.seed < 2 ^ 64) (h2 : f.nbHashes < 2 ^ 64)
    (h3 : f.length < 2 ^ 64) (h4 : f.size < 2 ^ 64) :
    uint8ArraySlice f.exportFilter 0 8 = int64ToUint8Array f.seed ∧
    uint8ArraySlice f.exportFilter 8 16 = int64ToUint8Array f.nbHashes ∧
    uint8ArraySlice f.exportFilter 16 24 = int64ToUint8Array f.length ∧
    uint8ArraySlice f.exportFilter 24 32 = int64ToUint8Array f.size ∧
    uint8ArraySlice f.exportFilter 32 f.exportFilter.length = f.filter ∧
    int64ToUint8Array f.seed =
      [f.seed / 2 ^ 56 % 256, f.seed / 2 ^ 48 % 256, f.seed / 2 ^ 40 % 256,
       f.seed / 2 ^ 32 % 256, f.seed / 2 ^ 24 % 256, f.seed / 2 ^ 16 % 256,
       f.seed / 2 ^ 8 % 256, f.seed % 256] ∧
    int64ToUint8Array f.nbHashes =
      [f.nbHashes / 2 ^ 56 % 256, f.nbHashes / 2 ^ 48 % 256, f.nbHashes / 2 ^ 40 % 256,
       f.nbHashes / 2 ^ 32 % 256, f.nbHashes / 2 ^ 24 % 256, f.nbHashes / 2 ^ 16 % 256,
       f.nbHashes / 2 ^ 8 % 256, f.nbHashes % 256] ∧
    int64ToUint8Array f.length =
      [f.length / 2 ^ 56 % 256, f.length / 2 ^ 48 % 256, f.length / 2 ^ 40 % 256,
       f.length / 2 ^ 32 % 256, f.length / 2 ^ 24 % 256, f.length / 2 ^ 16 % 256,
       f.length / 2 ^ 8 % 256, f.length % 256] ∧
    int64ToUint8Array f.size =
      [f.size / 2 ^ 56 % 256, f.size / 2 ^ 48 % 256, f.size / 2 ^ 40 % 256,
       f.size / 2 ^ 32 % 256, f.size / 2 ^ 24 % 256, f.size / 2 ^ 16 % 256,
       f.size / 2 ^ 8 % 256, f.size % 256] ∧
    ∀ b : List Nat,
      (BloomFilter.importFilter b).seed = uint8ArrayToInt64 (uint8ArraySlice b 0 8) ∧
      (BloomFilter.importFilter b).nbHashes = uint8ArrayToInt64 (uint8ArraySlice b 8 16) ∧
      (BloomFilter.importFilter b).length = uint8ArrayToInt64 (uint8ArraySlice b 16 24) ∧
      (BloomFilter.importFilter b).size = uint8ArrayToInt64 (uint8ArraySlice b 24 32) ∧
      (BloomFilter.importFilter b).filter = uint8ArraySlice b 32 b.length := by
  obtain ⟨hs, hh, hl, hz, hf⟩ := exportFilter_slices f
  exact ⟨hs, hh, hl, hz, hf,
    int64ToUint8Array_bigEndian _ h1, int64ToUint8Array_bigEndian _ h2,
    int64ToUint8Array_bigEndian _ h3, int64ToUint8Array_bigEndian _ h4,
    fun b => ⟨rfl, rfl, rfl, rfl, rfl⟩⟩

/-- Witness for C4 at a concrete filter: the seed slice of the export. -/
theorem exportFilter_header_layout_witness :
    uint8ArraySlice (BloomFilter.new 2 2).exportFilter 0 8 =
      int64ToUint8Array (BloomFilter.new 2 2).seed :=
  (exportFilter_header_layout (BloomFilter.new 2 2)
    (by decide) (by decide) (by decide) (by decide)).1

/-- C9.  `import` is total and permissive: for every byte buffer, of any
length, it returns a filter whose four fields are decoded from the byte
slices `[0,8)`, `[8,16)`, `[16,24)`, `[24,32)` of whatever bytes are
present (positional big-endian weights, so absent trailing bytes act as
zeros — last conjunct) and whose bit buffer is the bytes from offset 32
verbatim; no validation against `ceil(size/8)` happens. -/
theorem bloomFilter_import_total (b : List Nat) :
    (BloomFilter.importFilter b).seed = uint8ArrayToInt64 (uint8ArraySlice b 0 8) ∧
    (BloomFilter.importFilter b).nbHashes = uint8ArrayToInt64 (uint8ArraySlice b 8 16) ∧
    (BloomFilter.importFilter b).length = uint8ArrayToInt64 (uint8ArraySlice b 16 24) ∧
    (BloomFilter.importFilter b).size = uint8ArrayToInt64 (uint8ArraySlice b 24 32) ∧
    (BloomFilter.importFilter b).filter = uint8ArraySlice b 32 b.length ∧
    ∀ bs : List Nat, uint8ArrayToInt64 (bs ++ [0]) = uint8ArrayToInt64 bs :=
  ⟨rfl, rfl, rfl, rfl, rfl, fun bs => uint8ArrayToInt64Aux_append_zero bs 0 0⟩






